import Mathlib

/-!
Shallow embedding of the model-lifecycle subsystem of the
Cancer_Prediction MLOps repository, together with proofs about its
registry (`src/src/models/registry.py`), training orchestrator
(`src/src/models/train.py`, `src/src/models/hybrid_ensemble.py`),
predictor (`src/src/models/predict.py`), inference pipeline
(`src/src/pipelines/inference_pipeline.py`) and drift monitor
(`src/src/monitoring/data_drift.py`).

Python dictionaries are modelled as insertion-ordered association
lists; Python `max(..., key=...)` keeps the first maximal element on
ties, which the fold below reproduces.  The statistical fitting and
prediction algorithms themselves are external collaborators of the
subsystem and enter the embedding as function parameters (a classifier
maps one feature row to a label, respectively to a probability pair).
Numeric values are modelled by exact rationals.
-/

namespace CancerPrediction

/-- First-match lookup in an insertion-ordered association list, the
model of `d[k]` / `k in d` on a Python dict. -/
def lookupA {β : Type} : List (String × β) → String → Option β
  | [], _ => none
  | (k', v) :: t, k => if k' = k then some v else lookupA t k

/-- The model of Python dict assignment `d[k] = v`: an existing key
keeps its position, a new key is appended at the end. -/
def dictInsert {β : Type} : List (String × β) → String → β → List (String × β)
  | [], k, v => [(k, v)]
  | (k', v') :: t, k, v =>
    if k' = k then (k, v) :: t else (k', v') :: dictInsert t k v

theorem lookupA_dictInsert_self {β : Type} (l : List (String × β)) (k : String) (v : β) :
    lookupA (dictInsert l k v) k = some v := by
  induction l with
  | nil => simp [dictInsert, lookupA]
  | cons hd t ih =>
    obtain ⟨k', v'⟩ := hd
    by_cases h : k' = k
    · simp [dictInsert, lookupA, h]
    · simp [dictInsert, lookupA, h, ih]

theorem lookupA_dictInsert_ne {β : Type} (l : List (String × β)) (k k' : String) (v : β)
    (h : k ≠ k') : lookupA (dictInsert l k v) k' = lookupA l k' := by
  induction l with
  | nil => simp [dictInsert, lookupA, h]
  | cons hd t ih =>
    obtain ⟨k₀, v₀⟩ := hd
    by_cases h₀ : k₀ = k
    · subst h₀
      simp [dictInsert, lookupA, h]
    · simp only [dictInsert, if_neg h₀]
      by_cases h₁ : k₀ = k'
      · simp [lookupA, h₁]
      · simp [lookupA, h₁, ih]

/-! ## Model registry (`src/src/models/registry.py`)

A registry entry carries the fields written by `register_model`; the
index maps a model name to its version dict. -/

structure RegistryEntry where
  model_id : String
  model_name : String
  version : String
  path : String
  registered_at : String
  metrics : List (String × ℚ)
  metadata : List (String × String)
  status : String
  stage : Option String
  deriving DecidableEq, Repr

abbrev VersionDict := List (String × RegistryEntry)

abbrev Registry := List (String × VersionDict)

/-- Python string comparison (`<` on `str`): lexicographic by code
point, which is exactly list order on the strings' characters. -/
def pyStrLt (a b : String) : Bool := decide (a.data < b.data)

theorem pyStrLt_eq_true_of_lt {a b : String} (h : a < b) : pyStrLt a b = true :=
  decide_eq_true (show a.data < b.data from String.lt_iff_toList_lt.mp h)

theorem pyStrLt_eq_false_of_not_lt {a b : String} (h : ¬a < b) : pyStrLt a b = false :=
  decide_eq_false (show ¬a.data < b.data from
    fun hc => h (String.lt_iff_toList_lt.mpr hc))

/-- `max(versions.items(), key=lambda x: x[1].get("registered_at", ""))`
on a nonempty dict: Python's `max` scans left to right and replaces the
current maximum only on a strictly greater key, so the first maximal
item wins ties. -/
def pyMaxEntry (v0 : String × RegistryEntry) (rest : VersionDict) : String × RegistryEntry :=
  rest.foldl
    (fun best y => if pyStrLt best.2.registered_at y.2.registered_at then y else best) v0

/-- The version string `get_model_path` and `get_model_info` act on
after the `"latest"` branch: `"latest"` resolves to the key of the
`registered_at`-maximal entry, anything else is taken verbatim. -/
def resolve_version (versions : VersionDict) (version : String) : String :=
  match versions with
  | [] => version
  | v0 :: rest => if version = "latest" then (pyMaxEntry v0 rest).1 else version

/-- The body of `get_model_path` after the name lookup: empty-dict
check, `"latest"` resolution, version lookup, stale-path check. -/
def get_path_in (disk : String → Bool) (versions : VersionDict) (version : String) :
    Option String :=
  match versions with
  | [] => none
  | v0 :: rest =>
    match lookupA (v0 :: rest) (resolve_version (v0 :: rest) version) with
    | none => none
    | some entry => if disk entry.path then some entry.path else none

/-- `ModelRegistry.get_model_path` (registry.py lines 106-144).  `disk`
models `Path.exists`: which artifact paths are present on disk. -/
def get_model_path (disk : String → Bool) (reg : Registry)
    (name : String) (version : String) : Option String :=
  match lookupA reg name with
  | none => none
  | some versions => get_path_in disk versions version

/-- `ModelRegistry.delete_model` (registry.py lines 193-216): soft
delete.  Returns the Python return value paired with the registry
index after the call; the artifact files are never touched ("don't
actually remove from disk for safety"), which is why `disk` does not
appear. -/
def delete_model (reg : Registry) (name : String) (version : String) : Bool × Registry :=
  match lookupA reg name with
  | none => (false, reg)
  | some versions =>
    match lookupA versions version with
    | none => (false, reg)
    | some entry =>
      (true, dictInsert reg name
        (dictInsert versions version { entry with status := "deleted" }))

/-! ### Registry lemmas -/

/-- Pointwise shape relation between version dicts: same keys in the
same positions, same `registered_at` and `path` per entry.  The other
fields (in particular `status`) may differ.  `get_model_path` reads
nothing but keys, `registered_at` and `path`, so it cannot tell two
shape-equal dicts apart. -/
def entryShapeEq (a b : String × RegistryEntry) : Prop :=
  a.1 = b.1 ∧ a.2.registered_at = b.2.registered_at ∧ a.2.path = b.2.path

theorem entryShapeEq_list_refl (l : VersionDict) : List.Forall₂ entryShapeEq l l := by
  induction l with
  | nil => exact List.Forall₂.nil
  | cons hd t ih => exact List.Forall₂.cons ⟨rfl, rfl, rfl⟩ ih

theorem shapeEq_of_status_insert (versions : VersionDict) (version : String)
    (entry : RegistryEntry) (s : String) (hv : lookupA versions version = some entry) :
    List.Forall₂ entryShapeEq
      (dictInsert versions version { entry with status := s }) versions := by
  induction versions with
  | nil => simp [lookupA] at hv
  | cons hd t ih =>
    obtain ⟨k, e⟩ := hd
    by_cases hk : k = version
    · subst hk
      simp only [lookupA, eq_self_iff_true, if_true, Option.some.injEq] at hv
      subst hv
      simp only [dictInsert, eq_self_iff_true, if_true]
      exact List.Forall₂.cons ⟨rfl, rfl, rfl⟩ (entryShapeEq_list_refl t)
    · simp only [lookupA, if_neg hk] at hv
      simp only [dictInsert, if_neg hk]
      exact List.Forall₂.cons ⟨rfl, rfl, rfl⟩ (ih hv)

theorem pyMaxEntry_shapeEq (rest' rest : VersionDict) (v0' v0 : String × RegistryEntry)
    (h0 : entryShapeEq v0' v0) (h : List.Forall₂ entryShapeEq rest' rest) :
    entryShapeEq (pyMaxEntry v0' rest') (pyMaxEntry v0 rest) := by
  induction h generalizing v0' v0 with
  | nil => exact h0
  | @cons y' y t' t hy ht ih =>
    simp only [pyMaxEntry, List.foldl]
    rw [h0.2.1, hy.2.1]
    by_cases hc : pyStrLt v0.2.registered_at y.2.registered_at = true
    · simp only [if_pos hc]
      exact ih _ _ hy
    · simp only [if_neg hc]
      exact ih _ _ h0

theorem resolve_version_shapeEq (vs' vs : VersionDict) (version : String)
    (h : List.Forall₂ entryShapeEq vs' vs) :
    resolve_version vs' version = resolve_version vs version := by
  cases h with
  | nil => rfl
  | cons h0 ht =>
    simp only [resolve_version]
    by_cases hv : version = "latest"
    · simp only [if_pos hv]
      exact (pyMaxEntry_shapeEq _ _ _ _ h0 ht).1
    · simp [if_neg hv]

theorem lookupA_path_shapeEq (vs' vs : VersionDict) (k : String)
    (h : List.Forall₂ entryShapeEq vs' vs) :
    (lookupA vs' k).map RegistryEntry.path = (lookupA vs k).map RegistryEntry.path := by
  induction h with
  | nil => rfl
  | @cons a b t1 t2 h0 ht ih =>
    obtain ⟨ka, ea⟩ := a
    obtain ⟨kb, eb⟩ := b
    obtain ⟨hkey, _, hpath⟩ := h0
    simp only at hkey hpath
    subst hkey
    simp only [lookupA]
    by_cases hk : ka = k
    · simp [if_pos hk, hpath]
    · simp only [if_neg hk]
      exact ih

theorem get_path_in_shapeEq (disk : String → Bool) (vs' vs : VersionDict) (version : String)
    (h : List.Forall₂ entryShapeEq vs' vs) :
    get_path_in disk vs' version = get_path_in disk vs version := by
  cases h with
  | nil => rfl
  | @cons a b l1 l2 h0 ht =>
    simp only [get_path_in]
    rw [resolve_version_shapeEq (a :: l1) (b :: l2) version (List.Forall₂.cons h0 ht)]
    have hpaths := lookupA_path_shapeEq (a :: l1) (b :: l2)
      (resolve_version (b :: l2) version) (List.Forall₂.cons h0 ht)
    cases h1 : lookupA (a :: l1) (resolve_version (b :: l2) version) with
    | none =>
      cases h2 : lookupA (b :: l2) (resolve_version (b :: l2) version) with
      | none => rfl
      | some e2 => rw [h1, h2] at hpaths; simp at hpaths
    | some e1 =>
      cases h2 : lookupA (b :: l2) (resolve_version (b :: l2) version) with
      | none => rw [h1, h2] at hpaths; simp at hpaths
      | some e2 =>
        rw [h1, h2] at hpaths
        simp only [Option.map_some', Option.some.injEq] at hpaths
        simp [hpaths]

/-! ### Sample registry data, used to instantiate the registry theorems -/

def entry_v10 : RegistryEntry :=
  { model_id := "m_v1.0", model_name := "m", version := "1.0",
    path := "models/m/1.0", registered_at := "2025-01-01T00:00:00",
    metrics := [("accuracy", 1)], metadata := [], status := "active",
    stage := none }

def entry_v11 : RegistryEntry :=
  { model_id := "m_v1.1", model_name := "m", version := "1.1",
    path := "models/m/1.1", registered_at := "2025-02-03T00:00:00",
    metrics := [("accuracy", 1)], metadata := [], status := "active",
    stage := none }

def sampleRegistry : Registry := [("m", [("1.0", entry_v10), ("1.1", entry_v11)])]

def sampleDisk : String → Bool :=
  fun p => p == "models/m/1.0" || p == "models/m/1.1"

/-- C1: for a registry whose version dict for `name` holds two entries
`(n1, e1)` and `(n2, e2)` (in either insertion order) with
`e1.registered_at < e2.registered_at` under string comparison,
`get_model_path name "latest"` resolves the version maximizing
`registered_at` and returns `e2`'s stored path, provided that path
exists on disk. -/
theorem get_model_path_latest_picks_later (disk : String → Bool) (reg : Registry)
    (name n1 n2 : String) (e1 e2 : RegistryEntry)
    (hvs : lookupA reg name = some [(n1, e1), (n2, e2)] ∨
      lookupA reg name = some [(n2, e2), (n1, e1)])
    (hne : n1 ≠ n2)
    (hlt : e1.registered_at < e2.registered_at)
    (hdisk : disk e2.path = true) :
    get_model_path disk reg name "latest" = some e2.path := by
  have hb : pyStrLt e1.registered_at e2.registered_at = true :=
    pyStrLt_eq_true_of_lt hlt
  have hb' : pyStrLt e2.registered_at e1.registered_at = false :=
    pyStrLt_eq_false_of_not_lt (lt_asymm hlt)
  rcases hvs with hv | hv
  · simp [get_model_path, hv, get_path_in, resolve_version, pyMaxEntry, lookupA,
      hb, hne, hdisk]
  · simp [get_model_path, hv, get_path_in, resolve_version, pyMaxEntry, lookupA,
      hb', hdisk]

theorem get_model_path_latest_picks_later_witness :
    pyStrLt entry_v10.registered_at entry_v11.registered_at = true ∧
    get_model_path sampleDisk sampleRegistry "m" "latest" = some entry_v11.path :=
  ⟨by decide,
   get_model_path_latest_picks_later sampleDisk sampleRegistry "m" "1.0" "1.1"
     entry_v10 entry_v11 (Or.inl (by decide)) (by decide)
     (String.lt_iff_toList_lt.mpr (by decide)) (by decide)⟩

/-- C7: `get_model_path` returns a path exactly when the name is
present, its version dict is nonempty, the resolved version (the
`registered_at`-maximal one for `"latest"`, the argument itself
otherwise) is present, and the stored path exists on disk; the result
is then that stored path.  Contrapositively it returns `none` exactly
when the name is absent, the name has no versions, the resolved
version is absent, or the entry is stale (path missing on disk). -/
theorem get_model_path_some_iff (disk : String → Bool) (reg : Registry)
    (name version p : String) :
    get_model_path disk reg name version = some p ↔
      ∃ versions entry, lookupA reg name = some versions ∧ versions ≠ [] ∧
        lookupA versions (resolve_version versions version) = some entry ∧
        disk entry.path = true ∧ p = entry.path := by
  cases hn : lookupA reg name with
  | none => simp [get_model_path, hn]
  | some versions =>
    cases versions with
    | nil => simp [get_model_path, hn, get_path_in]
    | cons v0 rest =>
      cases hl : lookupA (v0 :: rest) (resolve_version (v0 :: rest) version) with
      | none => simp [get_model_path, hn, get_path_in, hl]
      | some entry =>
        by_cases hd : disk entry.path
        · constructor
          · intro h
            have hp : p = entry.path := by
              simp [get_model_path, hn, get_path_in, hl, hd] at h
              exact h.symm
            exact ⟨v0 :: rest, entry, rfl, List.cons_ne_nil _ _, hl, hd, hp⟩
          · rintro ⟨vs, e, hvs, -, hl2, hd2, hp⟩
            injection hvs with hvs
            subst hvs
            rw [hl] at hl2
            injection hl2 with hl2
            subst hl2
            subst hp
            simp [get_model_path, hn, get_path_in, hl, hd]
        · simp [get_model_path, hn, get_path_in, hl, hd]

theorem get_model_path_some_iff_witness :
    get_model_path sampleDisk sampleRegistry "m" "1.0" = some "models/m/1.0" :=
  (get_model_path_some_iff sampleDisk sampleRegistry "m" "1.0" "models/m/1.0").mpr
    ⟨[("1.0", entry_v10), ("1.1", entry_v11)], entry_v10,
      by decide, by decide, by decide, by decide, by decide⟩

/-- C9: `delete_model` on a registered `(name, version)` returns `true`
and replaces that entry by the same record with `status := "deleted"`
(all other fields of the entry literally preserved), leaves every
other version of the name and every other name untouched, and —
because resolution never reads `status` — leaves `get_model_path`
unchanged at every `(name, version, disk)`, so `"latest"` resolution
still sees the deleted entry.  On an unregistered `(name, version)` it
returns `false` and leaves the registry unchanged.  The artifact bytes
are never touched: `delete_model` does not act on the disk at all. -/
theorem delete_model_spec (reg : Registry) (name version : String) :
    (∀ versions entry, lookupA reg name = some versions →
      lookupA versions version = some entry →
      (delete_model reg name version).1 = true ∧
      lookupA (delete_model reg name version).2 name =
        some (dictInsert versions version { entry with status := "deleted" }) ∧
      lookupA (dictInsert versions version { entry with status := "deleted" }) version =
        some { entry with status := "deleted" } ∧
      (∀ v', v' ≠ version →
        lookupA (dictInsert versions version { entry with status := "deleted" }) v' =
          lookupA versions v') ∧
      (∀ n', n' ≠ name →
        lookupA (delete_model reg name version).2 n' = lookupA reg n') ∧
      (∀ disk n' v',
        get_model_path disk (delete_model reg name version).2 n' v' =
          get_model_path disk reg n' v')) ∧
    (lookupA reg name = none → delete_model reg name version = (false, reg)) ∧
    (∀ versions, lookupA reg name = some versions → lookupA versions version = none →
      delete_model reg name version = (false, reg)) := by
  refine ⟨?_, ?_, ?_⟩
  · intro versions entry hn hv
    have hdel : delete_model reg name version =
        (true, dictInsert reg name
          (dictInsert versions version { entry with status := "deleted" })) := by
      simp [delete_model, hn, hv]
    refine ⟨by rw [hdel], ?_, ?_, ?_, ?_, ?_⟩
    · rw [hdel]
      exact lookupA_dictInsert_self _ _ _
    · exact lookupA_dictInsert_self _ _ _
    · intro v' hv'
      exact lookupA_dictInsert_ne _ _ _ _ (Ne.symm hv')
    · intro n' hn'
      rw [hdel]
      exact lookupA_dictInsert_ne _ _ _ _ (Ne.symm hn')
    · intro disk n' v'
      rw [hdel]
      by_cases h : n' = name
      · subst h
        simp only [get_model_path, lookupA_dictInsert_self, hn]
        exact get_path_in_shapeEq disk _ _ v'
          (shapeEq_of_status_insert versions version entry "deleted" hv)
      · simp only [get_model_path, lookupA_dictInsert_ne _ _ _ _ (Ne.symm h)]
  · intro hn
    simp [delete_model, hn]
  · intro versions hn hv
    simp [delete_model, hn, hv]

theorem delete_model_spec_witness :
    (delete_model sampleRegistry "m" "1.0").1 = true ∧
    get_model_path sampleDisk (delete_model sampleRegistry "m" "1.0").2 "m" "latest" =
      get_model_path sampleDisk sampleRegistry "m" "latest" ∧
    delete_model sampleRegistry "x" "1.0" = (false, sampleRegistry) :=
  ⟨((delete_model_spec sampleRegistry "m" "1.0").1
      [("1.0", entry_v10), ("1.1", entry_v11)] entry_v10 (by decide) (by decide)).1,
   ((delete_model_spec sampleRegistry "m" "1.0").1
      [("1.0", entry_v10), ("1.1", entry_v11)] entry_v10 (by decide)
      (by decide)).2.2.2.2.2 sampleDisk "m" "latest",
   (delete_model_spec sampleRegistry "x" "1.0").2.1 (by decide)⟩

/-! ## Model predictor (`src/src/models/predict.py`)

The statistical classifier behind `self.model` is an external
collaborator of the subsystem (spec §1): its generic capability
assigns each feature row one label (`predict`) respectively one
probability pair over the two classes (`predict_proba`), so it enters
the embedding as a function on rows, applied row-wise to a batch. -/

structure ConfidenceResult where
  predictions : List ℤ
  probabilities : List (ℚ × ℚ)
  confidence : List ℚ
  positive_proba : List ℚ
  deriving DecidableEq, Repr

/-- `ModelPredictor.predict_with_confidence` (predict.py lines 115-141):
`predictions = (probabilities[:, 1] >= threshold).astype(int)`,
`confidence = np.max(probabilities, axis=1)` (row-wise maximum of the
two columns), `positive_proba = probabilities[:, 1]`. -/
def predict_with_confidence {α : Type} (proba : α → ℚ × ℚ) (X : List α)
    (threshold : ℚ) : ConfidenceResult :=
  let probabilities := X.map proba
  { predictions := probabilities.map (fun p => if p.2 ≥ threshold then 1 else 0)
    probabilities := probabilities
    confidence := probabilities.map (fun p => max p.1 p.2)
    positive_proba := probabilities.map (fun p => p.2) }

/-- `range(0, n, step)` for positive `step`: the chunk start indices
`0, step, 2*step, ...` strictly below `n`. -/
def pyRangeStep (n step : Nat) : List Nat :=
  (List.range ((n + step - 1) / step)).map (fun k => k * step)

/-- `ModelPredictor.batch_predict` (predict.py lines 143-169).
`predict` is the external classifier's per-row label function;
`self.predict(batch)` applies it to each row of the chunk
`X[i : i + batch_size]`.  `none` marks the places where the Python
raises: `range` with step `0` (`batch_size = 0` is a `ValueError`) and
`np.concatenate` on an empty list of chunk results (empty input is a
`ValueError`). -/
def batch_predict {α β : Type} (predict : α → β) (X : List α) (batch_size : Nat) :
    Option (List β) :=
  if batch_size = 0 then none
  else if ((pyRangeStep X.length batch_size).map
      (fun i => ((X.drop i).take batch_size).map predict)).isEmpty then none
  else some ((pyRangeStep X.length batch_size).map
      (fun i => ((X.drop i).take batch_size).map predict)).flatten

/-- Number of chunks of the ceiling division, one step down: for a
nonempty list, the first chunk accounts for one, the rest chunk the
tail from index `b` on. -/
theorem ceil_div_succ (n b : Nat) (hb : 0 < b) (hn : 0 < n) :
    (n + b - 1) / b = ((n - b) + b - 1) / b + 1 := by
  rcases le_or_lt n b with h | h
  · have h0 : n - b = 0 := Nat.sub_eq_zero_of_le h
    rw [h0]
    have h1 : (n + b - 1) / b = 1 := by
      apply Nat.div_eq_of_lt_le
      · omega
      · omega
    have h2 : (0 + b - 1) / b = 0 := Nat.div_eq_of_lt (by omega)
    omega
  · have : n + b - 1 = ((n - b) + b - 1) + b := by omega
    rw [this, Nat.add_div_right _ hb]

/-- Flattening the `range(0, n, b)` chunks recovers the list. -/
theorem flatten_chunks {α : Type} (b : Nat) (hb : 0 < b) :
    ∀ (n : Nat) (X : List α), X.length ≤ n →
      ((pyRangeStep X.length b).map (fun i => (X.drop i).take b)).flatten = X := by
  intro n
  induction n with
  | zero =>
    intro X hX
    have : X = [] := List.eq_nil_of_length_eq_zero (Nat.le_zero.mp hX)
    subst this
    have h0 : (0 + b - 1) / b = 0 := Nat.div_eq_of_lt (by omega)
    simp [pyRangeStep, h0]
  | succ n ih =>
    intro X hX
    cases X with
    | nil =>
      have h0 : (0 + b - 1) / b = 0 := Nat.div_eq_of_lt (by omega)
      simp [pyRangeStep, h0]
    | cons x xs =>
      have hlen : 0 < (x :: xs).length := by simp
      have hm : ((x :: xs).length + b - 1) / b =
          (((x :: xs).length - b) + b - 1) / b + 1 := ceil_div_succ _ b hb hlen
      have hdroplen : ((x :: xs).drop b).length = (x :: xs).length - b := by
        simp [List.length_drop]
      rw [pyRangeStep, hm, List.range_succ_eq_map]
      simp only [List.map_cons, List.map_map, List.flatten_cons, Nat.zero_mul,
        List.drop_zero]
      have hstep : ∀ k : Nat,
          ((x :: xs).drop ((Nat.succ k) * b)).take b =
            (((x :: xs).drop b).drop (k * b)).take b := by
        intro k
        rw [List.drop_drop]
        congr 1
        rw [Nat.succ_mul, Nat.add_comm]
      have hcong :
          (List.range ((((x :: xs).length - b) + b - 1) / b)).map
              ((fun i => ((x :: xs).drop i).take b) ∘ (fun k => k * b) ∘ Nat.succ) =
            (List.range (((((x :: xs).drop b).length) + b - 1) / b)).map
              ((fun i => (((x :: xs).drop b).drop i).take b) ∘ (fun k => k * b)) := by
        rw [hdroplen]
        apply List.map_congr_left
        intro k _
        simp only [Function.comp]
        exact hstep k
      rw [hcong]
      have htail :
          ((List.range (((((x :: xs).drop b).length) + b - 1) / b)).map
              ((fun i => (((x :: xs).drop b).drop i).take b) ∘ (fun k => k * b))).flatten =
            (x :: xs).drop b := by
        have hble : ((x :: xs).drop b).length ≤ n := by
          rw [List.length_drop]
          have : (x :: xs).length ≤ n + 1 := hX
          omega
        have := ih ((x :: xs).drop b) hble
        rw [pyRangeStep, List.map_map] at this
        exact this
      rw [htail]
      exact List.take_append_drop b (x :: xs)

/-- C4: per row, `predict_with_confidence` returns confidence equal to
the row-wise maximum of the probability vector, `positive_proba` equal
to the positive-class (column 1) probability, the probability row
unchanged from the classifier, and a predicted class equal to `1`
exactly when the positive-class probability reaches the threshold —
recomputed by thresholding, not taken from the classifier's own argmax
decision; and whenever the classifier's probability rows sum to 1, the
returned probability rows do too. -/
theorem predict_with_confidence_spec {α : Type} (proba : α → ℚ × ℚ) (X : List α)
    (threshold : ℚ) :
    (∀ (i : Nat) (x : α) (p0 p1 : ℚ), X[i]? = some x → proba x = (p0, p1) →
      ((predict_with_confidence proba X threshold).predictions[i]? = some 1 ↔
        threshold ≤ p1) ∧
      ((predict_with_confidence proba X threshold).predictions[i]? = some 0 ↔
        p1 < threshold) ∧
      (predict_with_confidence proba X threshold).confidence[i]? = some (max p0 p1) ∧
      (predict_with_confidence proba X threshold).positive_proba[i]? = some p1 ∧
      (predict_with_confidence proba X threshold).probabilities[i]? = some (p0, p1)) ∧
    ((∀ x ∈ X, (proba x).1 + (proba x).2 = 1) →
      ∀ q ∈ (predict_with_confidence proba X threshold).probabilities,
        q.1 + q.2 = 1) := by
  constructor
  · intro i x p0 p1 hx hp
    simp only [predict_with_confidence, List.getElem?_map, hx, Option.map_some', hp]
    refine ⟨?_, ?_, trivial, trivial, trivial⟩
    · by_cases h : threshold ≤ p1
      · simp [h]
      · have hlt : p1 < threshold := not_le.mp h
        simp [h, hlt, not_le.mpr hlt]
    · by_cases h : threshold ≤ p1
      · simp [h, not_lt.mpr h]
      · have hlt : p1 < threshold := not_le.mp h
        simp [hlt, not_le.mpr hlt]
  · intro hs q hq
    simp only [predict_with_confidence] at hq
    obtain ⟨x, hxX, rfl⟩ := List.mem_map.mp hq
    exact hs x hxX

theorem predict_with_confidence_spec_witness :
    (predict_with_confidence (fun p : ℚ × ℚ => p)
        [((0 : ℚ), (1 : ℚ)), ((1 : ℚ), (0 : ℚ))] 1).predictions[0]? = some 1 ∧
    (predict_with_confidence (fun p : ℚ × ℚ => p)
        [((0 : ℚ), (1 : ℚ)), ((1 : ℚ), (0 : ℚ))] 1).confidence[0]? = some (max 0 1) :=
  have h := (predict_with_confidence_spec (fun p : ℚ × ℚ => p)
    [((0 : ℚ), (1 : ℚ)), ((1 : ℚ), (0 : ℚ))] 1).1 0 (0, 1) 0 1 (by decide) rfl
  ⟨h.1.mpr (by decide), h.2.2.1⟩

/-- C5 (amended: nonempty input): for a positive batch size and a
nonempty already-validated matrix, `batch_predict` splits the rows
into contiguous fixed-size chunks in original order, predicts each
chunk independently, and concatenates in order — which is exactly the
row-wise prediction of the whole matrix; hence any two positive batch
sizes, in particular `8` and `len(X)`, give identical outputs.  The
restriction to nonempty input is forced: on a zero-row matrix the
chunk list is empty and `np.concatenate([])` raises. -/
theorem batch_predict_chunk_invariance {α β : Type} (predict : α → β) (X : List α)
    (b : Nat) (hb : 0 < b) (hX : X ≠ []) :
    batch_predict predict X b = some (X.map predict) ∧
    batch_predict predict X b = batch_predict predict X X.length := by
  have hlen0 : 0 < X.length := List.length_pos.mpr hX
  have main : ∀ b', 0 < b' → batch_predict predict X b' = some (X.map predict) := by
    intro b' hb'
    have hcount : 0 < (X.length + b' - 1) / b' :=
      (Nat.le_div_iff_mul_le hb').mpr (by omega)
    obtain ⟨r0, rs, hr⟩ : ∃ r0 rs, List.range ((X.length + b' - 1) / b') = r0 :: rs := by
      cases hr : List.range ((X.length + b' - 1) / b') with
      | nil =>
        exfalso
        have hl := List.length_range ((X.length + b' - 1) / b')
        rw [hr] at hl
        simp at hl
        omega
      | cons a as => exact ⟨a, as, rfl⟩
    have hflat := flatten_chunks b' hb' X.length X le_rfl
    have h1 : (pyRangeStep X.length b').map
        (fun i => ((X.drop i).take b').map predict) =
        ((pyRangeStep X.length b').map (fun i => (X.drop i).take b')).map
          (List.map predict) := by
      simp [List.map_map, Function.comp]
    have hkey : ((pyRangeStep X.length b').map
        (fun i => ((X.drop i).take b').map predict)).flatten = X.map predict := by
      rw [h1, ← List.map_flatten, hflat]
    have hne : ((pyRangeStep X.length b').map
        (fun i => ((X.drop i).take b').map predict)).isEmpty = false := by
      unfold pyRangeStep
      rw [hr]
      rfl
    rw [batch_predict, if_neg (show ¬ b' = 0 by omega),
      if_neg (by simp [pyRangeStep, hr]), hkey]
  exact ⟨main b hb, by rw [main b hb, main X.length hlen0]⟩

theorem batch_predict_chunk_invariance_witness :
    batch_predict (fun n : Nat => n * 2) [1, 2, 3] 2 =
      some ([1, 2, 3].map (fun n => n * 2)) ∧
    batch_predict (fun n : Nat => n * 2) [1, 2, 3] 2 =
      batch_predict (fun n : Nat => n * 2) [1, 2, 3] 3 :=
  have h := batch_predict_chunk_invariance (fun n : Nat => n * 2) [1, 2, 3] 2
    (by decide) (by decide)
  ⟨h.1, h.2⟩

/-- C5 counterexample: on the empty (zero-row) matrix there is no
chunk, `np.concatenate([])` raises, and `batch_predict` produces no
output array at all — not the empty output the claim's universal
statement demands at `X = []`, `b = 8`. -/
theorem batch_predict_empty_counterexample :
    batch_predict (fun q : ℚ => q) ([] : List ℚ) 8 ≠
      some (([] : List ℚ).map (fun q => q)) := by decide

/-! ## Inference pipeline input preparation
(`src/src/pipelines/inference_pipeline.py`)

`prepare_input` accepts a numpy array (returned untouched), a single
mapping, a list of mappings, or a DataFrame.  A cell is an
`Option ℚ`, with `none` playing the role of the `NaN` that pandas and
numpy use for absent values. -/

abbrev Cell := Option ℚ

/-- A pandas DataFrame abstracted to the two things `prepare_input`
reads: the column-name list and, per row, the mapping from column name
to cell value. -/
structure Frame where
  cols : List String
  rows : List (List (String × Cell))
  deriving DecidableEq, Repr

/-- The input shapes `prepare_input` accepts. -/
inductive PipeInput
  | ndarr (a : List (List Cell))
  | dict (m : List (String × Cell))
  | dicts (ms : List (List (String × Cell)))
  | frame (df : Frame)
  deriving DecidableEq, Repr

/-- `pd.DataFrame([data])` on one mapping: one row, the mapping's keys
as columns. -/
def frameOfDict (m : List (String × Cell)) : Frame := ⟨m.map Prod.fst, [m]⟩

/-- `pd.DataFrame(data)` on a list of mappings: the rows' keys,
collectively, become the columns.  pandas unions the keys; duplicates
in this list are immaterial because `prepare_input` only tests column
membership. -/
def frameOfDicts (ms : List (List (String × Cell))) : Frame :=
  ⟨(ms.map (fun r => r.map Prod.fst)).flatten, ms⟩

/-- `prepare_input`'s DataFrame conversion: a numpy array has no
frame (`prepare_input` returns it before any conversion). -/
def toFrame : PipeInput → Option Frame
  | .ndarr _ => none
  | .dict m => some (frameOfDict m)
  | .dicts ms => some (frameOfDicts ms)
  | .frame df => some df

/-- One selected cell of `data[feature_names].values`: a key the row
does not carry is pandas `NaN` (`none`). -/
def selectCell (r : List (String × Cell)) (c : String) : Cell :=
  (lookupA r c).join

/-- The mapping/tabular tail of `prepare_input` (inference_pipeline.py
lines 104-114): `missing_features = [f for f in feature_names if f not
in data.columns]`, raise naming that list when nonempty, otherwise
select `data[feature_names].values`. -/
def selectFromFrame (feature_names : List String) (df : Frame) :
    Except (List String) (List (List Cell)) :=
  if (feature_names.filter (fun f => decide (f ∉ df.cols))).isEmpty then
    .ok (df.rows.map (fun r => feature_names.map (fun f => selectCell r f)))
  else
    .error (feature_names.filter (fun f => decide (f ∉ df.cols)))

/-- `InferencePipeline.prepare_input` (inference_pipeline.py lines
83-114).  `feature_names` is the FeatureContract
(`FeatureBuilder.get_feature_names()`). -/
def prepare_input (feature_names : List String) : PipeInput →
    Except (List String) (List (List Cell))
  | .ndarr a => .ok a
  | .dict m => selectFromFrame feature_names (frameOfDict m)
  | .dicts ms => selectFromFrame feature_names (frameOfDicts ms)
  | .frame df => selectFromFrame feature_names df

theorem selectFromFrame_spec (fn : List String) (df : Frame) :
    ((∃ f, f ∈ fn ∧ f ∉ df.cols) →
      ∃ missing, selectFromFrame fn df = .error missing ∧ missing ≠ [] ∧
        (∀ f, f ∈ missing ↔ (f ∈ fn ∧ f ∉ df.cols))) ∧
    ((∀ f ∈ fn, f ∈ df.cols) →
      selectFromFrame fn df =
        .ok (df.rows.map (fun r => fn.map (fun f => selectCell r f)))) := by
  constructor
  · rintro ⟨f, hf, hfc⟩
    have hmem : f ∈ fn.filter (fun f => decide (f ∉ df.cols)) :=
      List.mem_filter.mpr ⟨hf, decide_eq_true hfc⟩
    have hne : fn.filter (fun f => decide (f ∉ df.cols)) ≠ [] := by
      intro h0
      rw [h0] at hmem
      exact List.not_mem_nil f hmem
    refine ⟨fn.filter (fun f => decide (f ∉ df.cols)), ?_, hne, ?_⟩
    · rw [selectFromFrame, if_neg (by simpa [List.isEmpty_iff] using hne)]
    · intro g
      rw [List.mem_filter]
      simp
  · intro hall
    have h0 : fn.filter (fun f => decide (f ∉ df.cols)) = [] := by
      rw [List.filter_eq_nil_iff]
      intro f hf
      simpa using hall f hf
    rw [selectFromFrame, if_pos (by rw [List.isEmpty_iff]; exact h0)]

/-- C3: on every mapping-like input (a mapping, a list of mappings, or
a DataFrame — anything `prepare_input` converts to a frame), if any
required feature of the FeatureContract is absent from the input's
columns, `prepare_input` raises a validation error carrying exactly
the features of the contract that are missing (all of them, not just
the first); if none is missing, the columns are selected strictly in
FeatureContract order: each output row is the row's cells at
`feature_names`, in that list's order. -/
theorem prepare_input_mapping_spec (feature_names : List String) (data : PipeInput)
    (df : Frame) (hdf : toFrame data = some df) :
    ((∃ f, f ∈ feature_names ∧ f ∉ df.cols) →
      ∃ missing, prepare_input feature_names data = .error missing ∧ missing ≠ [] ∧
        (∀ f, f ∈ missing ↔ (f ∈ feature_names ∧ f ∉ df.cols))) ∧
    ((∀ f ∈ feature_names, f ∈ df.cols) →
      prepare_input feature_names data =
        .ok (df.rows.map (fun r => feature_names.map (fun f => selectCell r f)))) := by
  cases data with
  | ndarr a => simp [toFrame] at hdf
  | dict m =>
    simp only [toFrame, Option.some.injEq] at hdf
    subst hdf
    exact selectFromFrame_spec feature_names (frameOfDict m)
  | dicts ms =>
    simp only [toFrame, Option.some.injEq] at hdf
    subst hdf
    exact selectFromFrame_spec feature_names (frameOfDicts ms)
  | frame df' =>
    simp only [toFrame, Option.some.injEq] at hdf
    subst hdf
    exact selectFromFrame_spec feature_names df'

theorem prepare_input_mapping_spec_witness :
    prepare_input ["radius_mean", "texture_mean"]
        (PipeInput.dict [("radius_mean", some 14), ("texture_mean", some 19)]) =
      Except.ok [[some 14, some 19]] := by
  have h := (prepare_input_mapping_spec ["radius_mean", "texture_mean"]
    (PipeInput.dict [("radius_mean", some 14), ("texture_mean", some 19)])
    (frameOfDict [("radius_mean", some 14), ("texture_mean", some 19)]) rfl).2
    (by decide)
  exact h

/-- C10: a numpy-array input is returned unchanged — `prepare_input`
performs no feature-name, column-count, or column-order validation on
it and never raises; the FeatureContract check runs only on mapping
and tabular inputs (which is C3's subject). -/
theorem prepare_input_ndarray_passthrough (feature_names : List String)
    (a : List (List Cell)) :
    prepare_input feature_names (PipeInput.ndarr a) = Except.ok a := rfl

/-! ## Ensemble training (`src/src/models/train.py`,
`src/src/models/hybrid_ensemble.py`)

The fitting algorithms are external (spec §1), so a trained artifact
is its name plus the trained flag, and fitting always succeeds in the
embedding.  `ModelTrainer.trained_models` is the run-scoped cache. -/

structure Artifact where
  model_name : String
  is_trained : Bool
  deriving DecidableEq, Repr

/-- `ModelTrainer.train_model` on a non-composite name: create the
variant, fit it (external), yielding a trained artifact. -/
def trainBase (name : String) : Artifact := { model_name := name, is_trained := true }

/-- The fallback list `_train_ensemble` substitutes when the
configured `models` list is empty (train.py lines 95-96). -/
def defaultBaseModels : List String :=
  ["logistic_regression", "gradient_boosting", "neural_network"]

/-- The base-model resolution loop of `ModelTrainer._train_ensemble`
(train.py lines 100-109): walk the spec names in order; a cached name
is reused as-is, an uncached one is trained via `train_model` — which
also stores it in the cache (`self.trained_models[model_name] =
model`).  Returns the ordered base models, the cache after the loop,
and the names for which training was invoked, in invocation order. -/
def resolveBaseModels (cache : List (String × Artifact)) :
    List String → List Artifact × List (String × Artifact) × List String
  | [] => ([], cache, [])
  | name :: rest =>
    match lookupA cache name with
    | some m =>
      let r := resolveBaseModels cache rest
      (m :: r.1, r.2.1, r.2.2)
    | none =>
      let m := trainBase name
      let r := resolveBaseModels (dictInsert cache name m) rest
      (m :: r.1, r.2.1, name :: r.2.2)

/-- `HybridEnsembleModel.build` (hybrid_ensemble.py lines 52-69):
raises `ValueError` on an empty base-model list before anything is
wrapped or fitted; otherwise wraps the trained handles in the voting
classifier. -/
def HybridEnsembleModel_build (base_models : List Artifact) :
    Except String (List Artifact) :=
  if base_models.isEmpty then
    Except.error "Base models must be set before building ensemble"
  else Except.ok base_models

/-- The result of `_train_ensemble`: the fitted ensemble's base
handles, the run cache after the call, and the base-training log. -/
structure EnsembleRun where
  ensemble : List Artifact
  cache : List (String × Artifact)
  log : List String
  deriving DecidableEq, Repr

/-- `ModelTrainer._train_ensemble` (train.py lines 73-118): an empty
configured list is replaced by `defaultBaseModels`; the base models
are resolved through the run cache; the ensemble is built over the
trained handles and fitted — `ensemble.fit` fits the voting
combination through the external classifier capability and never calls
`train_model`, so it appends nothing to the base-training log — and
the ensemble is stored in the cache under `"hybrid_ensemble"`. -/
def train_ensemble (cache : List (String × Artifact))
    (base_model_names : List String) : EnsembleRun :=
  let names := if base_model_names.isEmpty then defaultBaseModels
    else base_model_names
  let r := resolveBaseModels cache names
  { ensemble := r.1
    cache := dictInsert r.2.1 "hybrid_ensemble" ⟨"hybrid_ensemble", true⟩
    log := r.2.2 }

/-! ### Resolution-loop lemmas -/

/-- The resolution loop never overwrites a cache entry: whatever the
cache holds for a name before the loop, it still holds after. -/
theorem resolveBaseModels_cache_mono (names : List String) :
    ∀ (cache : List (String × Artifact)) (n : String) (m : Artifact),
      lookupA cache n = some m →
      lookupA (resolveBaseModels cache names).2.1 n = some m := by
  induction names with
  | nil => intro cache n m h; exact h
  | cons name rest ih =>
    intro cache n m h
    cases hc : lookupA cache name with
    | some m0 =>
      simp only [resolveBaseModels, hc]
      exact ih cache n m h
    | none =>
      simp only [resolveBaseModels, hc]
      apply ih
      have hne : name ≠ n := by
        intro he
        rw [he, h] at hc
        exact Option.noConfusion hc
      rw [lookupA_dictInsert_ne _ _ _ _ hne]
      exact h

/-- Characterization of the training log: a name is trained during the
loop exactly when it occurs in the spec and was not cached when the
loop started. -/
theorem resolveBaseModels_log_iff (names : List String) :
    ∀ (cache : List (String × Artifact)) (n : String),
      n ∈ (resolveBaseModels cache names).2.2 ↔
        (n ∈ names ∧ lookupA cache n = none) := by
  induction names with
  | nil => intro cache n; simp [resolveBaseModels]
  | cons name rest ih =>
    intro cache n
    cases hc : lookupA cache name with
    | some m0 =>
      simp only [resolveBaseModels, hc]
      rw [ih]
      constructor
      · rintro ⟨hr, hn⟩
        exact ⟨List.mem_cons_of_mem _ hr, hn⟩
      · rintro ⟨hmem, hn⟩
        rcases List.mem_cons.mp hmem with rfl | hr
        · rw [hn] at hc
          exact Option.noConfusion hc
        · exact ⟨hr, hn⟩
    | none =>
      simp only [resolveBaseModels, hc]
      by_cases he : n = name
      · subst he
        simp [hc]
      · rw [List.mem_cons]
        constructor
        · rintro (rfl | hmem)
          · exact absurd rfl he
          · obtain ⟨hr, hn⟩ := (ih _ n).mp hmem
            rw [lookupA_dictInsert_ne _ _ _ _ (fun h => he h.symm)] at hn
            exact ⟨List.mem_cons_of_mem _ hr, hn⟩
        · rintro ⟨hmem, hn⟩
          rcases List.mem_cons.mp hmem with rfl | hr
          · exact absurd rfl he
          · right
            apply (ih _ n).mpr
            rw [lookupA_dictInsert_ne _ _ _ _ (fun h => he h.symm)]
            exact ⟨hr, hn⟩

/-- Positional reuse: the i-th resolved base model of a name cached
before the loop is the cached artifact itself. -/
theorem resolveBaseModels_reuses_cached (names : List String) :
    ∀ (cache : List (String × Artifact)) (i : Nat) (n : String) (m : Artifact),
      names[i]? = some n → lookupA cache n = some m →
      (resolveBaseModels cache names).1[i]? = some m := by
  induction names with
  | nil => intro cache i n m h; simp at h
  | cons name rest ih =>
    intro cache i n m hi hm
    cases i with
    | zero =>
      simp only [List.getElem?_cons_zero, Option.some.injEq] at hi
      subst hi
      simp only [resolveBaseModels, hm, List.getElem?_cons_zero]
    | succ j =>
      simp only [List.getElem?_cons_succ] at hi
      cases hc : lookupA cache name with
      | some m0 =>
        simp only [resolveBaseModels, hc, List.getElem?_cons_succ]
        exact ih cache j n m hi hm
      | none =>
        simp only [resolveBaseModels, hc, List.getElem?_cons_succ]
        apply ih _ j n m hi
        have hne : name ≠ n := by
          intro he
          rw [he, hm] at hc
          exact Option.noConfusion hc
        rw [lookupA_dictInsert_ne _ _ _ _ hne]
        exact hm

/-- Trained names end up cached. -/
theorem resolveBaseModels_trained_cached (names : List String) :
    ∀ (cache : List (String × Artifact)) (n : String),
      n ∈ (resolveBaseModels cache names).2.2 →
      lookupA (resolveBaseModels cache names).2.1 n = some (trainBase n) := by
  induction names with
  | nil => intro cache n h; simp [resolveBaseModels] at h
  | cons name rest ih =>
    intro cache n h
    cases hc : lookupA cache name with
    | some m0 =>
      simp only [resolveBaseModels, hc] at h ⊢
      exact ih cache n h
    | none =>
      simp only [resolveBaseModels, hc, List.mem_cons] at h ⊢
      rcases h with rfl | hmem
      · exact resolveBaseModels_cache_mono rest _ n (trainBase n)
          (lookupA_dictInsert_self _ _ _)
      · exact ih _ n hmem

/-- C6: throughout one training run, a spec name already in the
run-scoped cache is reused — the resolved base model at its position
is the cached artifact itself and training is never invoked for that
name; a name is trained exactly when it occurs in the spec and was
uncached when resolution started, and every trained name is then
cached; and the final ensemble fit contributes nothing to the
base-training log — `_train_ensemble`'s log is the resolution loop's
log, the fit training only the voting combination through the external
capability. -/
theorem train_ensemble_cache_invariants (cache : List (String × Artifact))
    (names : List String) :
    (∀ n m, lookupA cache n = some m → n ∉ (resolveBaseModels cache names).2.2) ∧
    (∀ n, n ∈ (resolveBaseModels cache names).2.2 ↔
      (n ∈ names ∧ lookupA cache n = none)) ∧
    (∀ (i : Nat) (n : String) (m : Artifact), names[i]? = some n →
      lookupA cache n = some m →
      (resolveBaseModels cache names).1[i]? = some m) ∧
    (∀ n, n ∈ (resolveBaseModels cache names).2.2 →
      lookupA (resolveBaseModels cache names).2.1 n = some (trainBase n)) ∧
    (names ≠ [] →
      (train_ensemble cache names).log = (resolveBaseModels cache names).2.2) := by
  refine ⟨?_, fun n => resolveBaseModels_log_iff names cache n,
    fun i n m hi hm => resolveBaseModels_reuses_cached names cache i n m hi hm,
    fun n h => resolveBaseModels_trained_cached names cache n h, ?_⟩
  · intro n m hm hmem
    obtain ⟨-, hn⟩ := (resolveBaseModels_log_iff names cache n).mp hmem
    rw [hm] at hn
    exact Option.noConfusion hn
  · intro hne
    cases names with
    | nil => exact absurd rfl hne
    | cons a t => rfl

def sampleCache : List (String × Artifact) :=
  [("logistic_regression", trainBase "logistic_regression")]

theorem train_ensemble_cache_invariants_witness :
    ("logistic_regression" ∉
      (resolveBaseModels sampleCache
        ["logistic_regression", "gradient_boosting"]).2.2) ∧
    ((resolveBaseModels sampleCache
        ["logistic_regression", "gradient_boosting"]).1[0]? =
      some (trainBase "logistic_regression")) ∧
    ("gradient_boosting" ∈
      (resolveBaseModels sampleCache
        ["logistic_regression", "gradient_boosting"]).2.2) :=
  have h := train_ensemble_cache_invariants sampleCache
    ["logistic_regression", "gradient_boosting"]
  ⟨h.1 "logistic_regression" (trainBase "logistic_regression") (by decide),
   h.2.2.1 0 "logistic_regression" (trainBase "logistic_regression")
     (by decide) (by decide),
   (h.2.1 "gradient_boosting").mpr (by decide)⟩

/-- C2 counterexample: with an empty configured base-model list and an
empty run cache, `_train_ensemble` raises no configuration error — it
substitutes the default base-model list and invokes base-model
training for all three defaults, so training does occur. -/
theorem train_ensemble_empty_spec_counterexample :
    (train_ensemble [] []).log = defaultBaseModels ∧
    (train_ensemble [] []).log ≠ [] :=
  ⟨by decide, by decide⟩

/-- C2 amended: an empty base-model list in the ensemble spec does not
fail with a configuration error — `_train_ensemble` silently replaces
it by the default base-model list and trains as if that list had been
configured; only `HybridEnsembleModel.build` (reached through
`fit`) on an ensemble whose own base-model list is empty raises a
`ValueError`, and that error does precede any training or fitting. -/
theorem train_ensemble_empty_spec_amended (cache : List (String × Artifact)) :
    train_ensemble cache [] = train_ensemble cache defaultBaseModels ∧
    HybridEnsembleModel_build [] =
      Except.error "Base models must be set before building ensemble" :=
  ⟨rfl, rfl⟩

/-! ## Drift monitor (`src/src/monitoring/data_drift.py`)

`detect_drift_statistics` compares per-column means and standard
deviations.  The statistics themselves come from pandas
(`DataFrame.mean()/.std()`, external), so reference and current data
enter the embedding as per-column `(mean, std)` association lists —
a column is "in `current_data.columns`" when the current list carries
it. -/

/-- `abs((cur - ref) / ref) if ref != 0 else 0` (data_drift.py lines
144-145), the zero-division guard applied to both the mean and the
std change. -/
def relChange (ref cur : ℚ) : ℚ := if ref ≠ 0 then |(cur - ref) / ref| else 0

structure DriftDetail where
  mean_change : ℚ
  std_change : ℚ
  reference_mean : ℚ
  current_mean : ℚ
  reference_std : ℚ
  current_std : ℚ
  drifted : Bool
  deriving DecidableEq, Repr

/-- One entry of `drift_results` (data_drift.py lines 149-157). -/
def mkDriftDetail (threshold rm rs cm cs : ℚ) : DriftDetail :=
  { mean_change := relChange rm cm
    std_change := relChange rs cs
    reference_mean := rm
    current_mean := cm
    reference_std := rs
    current_std := cs
    drifted := decide (relChange rm cm > threshold ∨ relChange rs cs > threshold) }

structure DriftSummary where
  total_features : Nat
  drifted_features : List String
  drift_count : Nat
  threshold : ℚ
  details : List (String × DriftDetail)
  deriving DecidableEq, Repr

/-- `DataDriftDetector.detect_drift_statistics` (data_drift.py lines
109-170): walk the reference columns in order, skip those absent from
the current data, record a detail per shared column, flag it drifted
when either relative change strictly exceeds the threshold, and report
the drifted list, the count, and the details. -/
def detect_drift_statistics (reference_stats current_stats : List (String × ℚ × ℚ))
    (threshold : ℚ) : DriftSummary :=
  let details := reference_stats.filterMap (fun x =>
    (lookupA current_stats x.1).map
      (fun c => (x.1, mkDriftDetail threshold x.2.1 x.2.2 c.1 c.2)))
  let drifted := (details.filter (fun d => d.2.drifted)).map Prod.fst
  { total_features := details.length
    drifted_features := drifted
    drift_count := drifted.length
    threshold := threshold
    details := details }

/-- In an association list with `Nodup` keys (a Python dict), a key
determines its value. -/
theorem nodupKeys_mem_unique {β : Type} {l : List (String × β)}
    (h : (l.map Prod.fst).Nodup) {k : String} {a b : β}
    (ha : (k, a) ∈ l) (hb : (k, b) ∈ l) : a = b := by
  induction l with
  | nil => simp at ha
  | cons hd t ih =>
    obtain ⟨k0, v0⟩ := hd
    simp only [List.map_cons, List.nodup_cons] at h
    rcases List.mem_cons.mp ha with ha0 | ha'
    · rcases List.mem_cons.mp hb with hb0 | hb'
      · rw [Prod.mk.injEq] at ha0 hb0
        rw [ha0.2, hb0.2]
      · exfalso
        apply h.1
        rw [Prod.mk.injEq] at ha0
        rw [← ha0.1]
        exact List.mem_map.mpr ⟨(k, b), hb', rfl⟩
    · rcases List.mem_cons.mp hb with hb0 | hb'
      · exfalso
        apply h.1
        rw [Prod.mk.injEq] at hb0
        rw [← hb0.1]
        exact List.mem_map.mpr ⟨(k, a), ha', rfl⟩
      · exact ih h.2 ha' hb'

/-- C8: in the summary-statistic drift test, every feature shared
between the reference and the current data gets a detail entry whose
changes are the relative mean and std changes against the reference;
it is flagged drifted exactly when either relative change — a zero
reference value being treated as a 0% change — strictly exceeds the
threshold; it appears in the drifted-feature list exactly when
flagged; and the reported drift count is the length of that list. -/
theorem detect_drift_statistics_spec (refS curS : List (String × ℚ × ℚ))
    (threshold : ℚ) (hnodup : (refS.map Prod.fst).Nodup)
    (c : String) (rm rs cm cs : ℚ)
    (href : (c, rm, rs) ∈ refS)
    (hcur : lookupA curS c = some (cm, cs)) :
    ((c, mkDriftDetail threshold rm rs cm cs) ∈
      (detect_drift_statistics refS curS threshold).details) ∧
    (c ∈ (detect_drift_statistics refS curS threshold).drifted_features ↔
      ((if rm = 0 then 0 else |(cm - rm) / rm|) > threshold ∨
       (if rs = 0 then 0 else |(cs - rs) / rs|) > threshold)) ∧
    (detect_drift_statistics refS curS threshold).drift_count =
      (detect_drift_statistics refS curS threshold).drifted_features.length := by
  have hrel : ∀ r c0 : ℚ, relChange r c0 = if r = 0 then 0 else |(c0 - r) / r| := by
    intro r c0
    by_cases h : r = 0
    · simp [relChange, h]
    · simp [relChange, h]
  have hdet : (c, mkDriftDetail threshold rm rs cm cs) ∈
      refS.filterMap (fun x => (lookupA curS x.1).map
        (fun cc => (x.1, mkDriftDetail threshold x.2.1 x.2.2 cc.1 cc.2))) :=
    List.mem_filterMap.mpr ⟨(c, rm, rs), href, by simp [hcur]⟩
  refine ⟨hdet, ?_, rfl⟩
  constructor
  · intro hc
    have hc' : c ∈ ((refS.filterMap (fun x => (lookupA curS x.1).map
        (fun cc => (x.1, mkDriftDetail threshold x.2.1 x.2.2 cc.1 cc.2)))).filter
          (fun d => d.2.drifted)).map Prod.fst := hc
    obtain ⟨p, hp, hpc⟩ := List.mem_map.mp hc'
    have hpfil := List.mem_filter.mp hp
    obtain ⟨x, hx, hgx⟩ := List.mem_filterMap.mp hpfil.1
    obtain ⟨kx, mx, sx⟩ := x
    cases hl : lookupA curS kx with
    | none => rw [hl] at hgx; exact Option.noConfusion hgx
    | some cpair =>
      rw [hl] at hgx
      simp only [Option.map_some', Option.some.injEq] at hgx
      rw [← hgx] at hpc hpfil
      simp only at hpc
      subst hpc
      have hvals : (mx, sx) = (rm, rs) := nodupKeys_mem_unique hnodup hx href
      rw [Prod.mk.injEq] at hvals
      have hcp : cpair = (cm, cs) := by
        rw [hl] at hcur
        injection hcur
      have hdr := hpfil.2
      simp only at hdr
      have hprop := of_decide_eq_true hdr
      rw [hvals.1, hvals.2, hcp] at hprop
      simpa [hrel] using hprop
  · intro hP
    have hprop : relChange rm cm > threshold ∨ relChange rs cs > threshold := by
      rwa [hrel, hrel]
    have hd : (mkDriftDetail threshold rm rs cm cs).drifted = true :=
      decide_eq_true hprop
    exact List.mem_map.mpr
      ⟨(c, mkDriftDetail threshold rm rs cm cs),
        List.mem_filter.mpr ⟨hdet, hd⟩, rfl⟩

theorem detect_drift_statistics_spec_witness :
    (("f", mkDriftDetail 1 0 1 5 1) ∈
      (detect_drift_statistics [("f", 0, 1)] [("f", 5, 1)] 1).details) ∧
    (detect_drift_statistics [("f", 0, 1)] [("f", 5, 1)] 1).drift_count =
      (detect_drift_statistics [("f", 0, 1)] [("f", 5, 1)] 1).drifted_features.length :=
  have h := detect_drift_statistics_spec [("f", 0, 1)] [("f", 5, 1)] 1 (by decide)
    "f" 0 1 5 1 (by decide) (by decide)
  ⟨h.1, h.2.2⟩

end CancerPrediction
